import Mathlib

/-!
Shallow embedding of the foodtech-quiz server core (src/controllers.rs,
src/models.rs) and proofs about it.

Modelling conventions:
* Rust `String` values are modelled as their UTF-8 byte lists (`Str := List Nat`).
  `str::trim` and `str::to_lowercase` are modelled on the ASCII subset, which
  coincides with the Unicode definitions on all ASCII inputs.
* `BTreeMap<String, V>` is modelled as an association list without duplicate
  keys; insertion replaces in place or appends.  Iteration order of a `BTreeMap`
  is sorted, the model keeps insertion order: every property proved here
  (lookups, sums, lengths) is invariant under entry order.
* Machine integers (`u32`, `u8`, `u64` lengths) are modelled as `Nat`, with
  `u32` overflow made explicit: the multiplication in the per-quiz score and
  every `u32` sum/addition in `points` and `register_user` wrap mod `2^32`
  (release-mode semantics, `wrap32`/`wrapSum`).  The unguarded `u32` division
  in `QuizController::points` panics when a referenced quiz has zero questions;
  the model returns `none` there (`Option Nat`).
* `DateTime<Utc>` is modelled as `Int` (a timestamp); `chrono` comparison is
  timeline order, which any order embedding represents faithfully.
* Randomness (`thread_rng` + `choose_weighted`) is modelled by passing the
  random draw as an explicit argument: `choose_weighted` draws uniformly in
  `[0, total_weight)` and selects by cumulative weight.
* The HMAC-SHA256 primitive of `ring` is modelled as an explicit `tag`
  function parameter (the secret key is baked into it); `hmac::verify`
  recomputes the tag over the message and compares, which is what `ring`
  guarantees semantically (the constant-time aspect of the comparison is not
  observable in a functional model).
* `bincode` (v1, default options: little-endian, fixed-width integers,
  `usize`/collection lengths as `u64`) and `base64` (`URL_SAFE_NO_PAD`) are
  implemented concretely below.
-/

/-- Bytes of a Rust `String` (UTF-8). -/
abbrev Str : Type := List Nat

/-- models.rs `QuizQuestion`: question text, correct answers, incorrect answers. -/
structure QuizQuestion where
  question : Str
  correct : List Str
  incorrect : List Str
deriving DecidableEq

/-- models.rs `Quiz`: name, points, ordered question list. -/
structure Quiz where
  name : Str
  points : Nat
  questions : List QuizQuestion
deriving DecidableEq

/-- models.rs `Code`: code text, points, inclusive validity window. -/
structure Code where
  code : Str
  points : Nat
  valid_from : Int
  valid_to : Int
deriving DecidableEq

/-- models.rs `Wheel`: just a name. -/
structure Wheel where
  name : Str
deriving DecidableEq

/-- models.rs `UserState`: 16-byte id, per-quiz answer booleans, per-wheel points.
`id` is the byte list of the `UserId([u8; 16])`; `answers` and `wheels` model
the two `BTreeMap`s as association lists. -/
structure UserState where
  id : List Nat
  answers : List (Str × List Bool)
  wheels : List (Str × Nat)
deriving DecidableEq

/-- models.rs `UserRecord`.  NOTE: the struct in models.rs declares exactly the
fields `id, email, points, codes, time` — it has no `consent` field, although
`QuizController::register_user` (controllers.rs line 210) writes a `consent`
value into the struct literal.  The struct declaration is the authority for the
shape of the record, so the model carries no consent field; see claim C8. -/
structure UserRecord where
  id : Str
  email : Str
  points : Nat
  codes : Str
  time : Int
deriving DecidableEq

/-- `BTreeMap::get`: first (only) entry with the given key. -/
def mapGet {α : Type} (m : List (Str × α)) (k : Str) : Option α :=
  match m with
  | [] => none
  | kv :: rest => if kv.1 = k then some kv.2 else mapGet rest k

/-- `BTreeMap::insert`: replace the value in place if the key is present,
otherwise add the entry. -/
def mapInsert {α : Type} (m : List (Str × α)) (k : Str) (v : α) : List (Str × α) :=
  match m with
  | [] => [(k, v)]
  | kv :: rest => if kv.1 = k then (k, v) :: rest else kv :: mapInsert rest k v

/-- Byte-list lexicographic strict order, the order `BTreeSet<String>` and
`Vec<String>::sort` use (Rust compares strings by their UTF-8 bytes). -/
def strLt : Str → Str → Bool
  | _, [] => false
  | [], _ :: _ => true
  | a :: as', b :: bs => decide (a < b) || (decide (a = b) && strLt as' bs)

/-- Insert into a sorted duplicate-free list (`BTreeSet::insert`). -/
def setInsert (x : Str) : List Str → List Str
  | [] => [x]
  | y :: ys => if x = y then y :: ys else if strLt x y then x :: y :: ys else y :: setInsert x ys

/-- `collect::<BTreeSet<_>>()`: deduplicate (case-sensitively) into sorted order. -/
def dedupSorted (l : List Str) : List Str :=
  l.foldl (fun s x => setInsert x s) []

/-- Stable insertion into a sorted list, for `Vec::sort`. -/
def sortInsert (x : Str) : List Str → List Str
  | [] => [x]
  | y :: ys => if strLt x y then x :: y :: ys else y :: sortInsert x ys

/-- `Vec::sort` on strings, as insertion sort. -/
def sortStrs (l : List Str) : List Str :=
  match l with
  | [] => []
  | x :: rest => sortInsert x (sortStrs rest)

/-- ASCII whitespace bytes (the ASCII subset of `char::is_whitespace`). -/
def isWs (b : Nat) : Bool :=
  decide (b = 32) || decide (b = 9) || decide (b = 10) || decide (b = 11) ||
    decide (b = 12) || decide (b = 13)

/-- `str::trim` (ASCII model): strip whitespace from both ends. -/
def trim (s : Str) : Str :=
  ((s.dropWhile isWs).reverse.dropWhile isWs).reverse

/-- Lower-case one byte (ASCII model of Unicode lowercasing). -/
def lowerByte (b : Nat) : Nat :=
  if 65 ≤ b ∧ b ≤ 90 then b + 32 else b

/-- `str::to_lowercase` (ASCII model). -/
def toLowercase (s : Str) : Str :=
  s.map lowerByte

/-- Hex digit character for a nibble (`hex::encode` uses lower-case digits). -/
def hexDigit (n : Nat) : Nat :=
  if n < 10 then 48 + n else 87 + n

/-- `hex::encode` of a byte list. -/
def hexEncode (bytes : List Nat) : Str :=
  (bytes.map (fun b => [hexDigit (b / 16), hexDigit (b % 16)])).flatten

/-- `Vec::<String>::join(" ")`. -/
def joinSpace : List Str → Str
  | [] => []
  | [s] => s
  | s :: rest => s ++ 32 :: joinSpace rest

/-- controllers.rs `QuizController`: the catalog maps built by
`QuizController::new` (quizzes keyed by `quiz.name`, codes keyed by the
verbatim configured `code.code`, wheels as a name set).  The secret key and the
writer are modelled at the call sites that use them. -/
structure QuizController where
  quiz : List (Str × Quiz)
  codes : List (Str × Code)
  wheel : List Str
deriving DecidableEq

/-- `collect` of an iterator of key-value pairs into a `BTreeMap` (later
duplicates overwrite earlier ones). -/
def ofListMap {α : Type} (l : List (Str × α)) : List (Str × α) :=
  l.foldl (fun m kv => mapInsert m kv.1 kv.2) []

/-- controllers.rs `QuizController::new`: build the three catalog structures. -/
def QuizController.new (quizzes : List Quiz) (codes : List Code) (wheels : List Wheel) :
    QuizController :=
  ⟨ofListMap (quizzes.map (fun q => (q.name, q))),
   ofListMap (codes.map (fun c => (c.code, c))),
   dedupSorted (wheels.map (fun w => w.name))⟩

/-- controllers.rs `QuizController::create_user`: fresh state with a given
16-byte random id and empty maps. -/
def createUser (id : List Nat) : UserState :=
  ⟨id, [], []⟩

/-- controllers.rs `QuizController::next_question`: the question at index
`len(answers[quiz_name])` (0 if absent), or `none` if the quiz is unknown or
the index is past the end. -/
def nextQuestion (c : QuizController) (quizName : Str) (s : UserState) : Option QuizQuestion :=
  match mapGet c.quiz quizName with
  | none => none
  | some quiz =>
    let index := ((mapGet s.answers quizName).map List.length).getD 0
    quiz.questions.get? index

/-- controllers.rs `QuizController::answer_question`: if `next_question` yields
a question, append whether the answer matches any correct string to
`answers[quiz_name]` (creating the entry if absent) and return the pair;
otherwise return `none` leaving the state unchanged.  The mutated state is
returned explicitly. -/
def answerQuestion (c : QuizController) (quizName : Str) (s : UserState) (answer : Str) :
    Option (Bool × QuizQuestion) × UserState :=
  match nextQuestion c quizName s with
  | none => (none, s)
  | some q =>
    let answerMatches := q.correct.any (fun correct => correct = answer)
    let answers' :=
      match mapGet s.answers quizName with
      | none => mapInsert s.answers quizName [answerMatches]
      | some answers => mapInsert s.answers quizName (answers ++ [answerMatches])
    (some (answerMatches, q), ⟨s.id, answers', s.wheels⟩)

/-- controllers.rs `spin_wheel` constant `CHOICES`: (points, weight) pairs. -/
def CHOICES : List (Nat × Nat) := [(20, 3), (40, 2), (60, 1)]

/-- `SliceRandom::choose_weighted` over `CHOICES`: draw uniformly in
`[0, total_weight)` (here `total_weight = 6`) and select by cumulative weight.
`r` is the uniform draw supplied by the rng. -/
def chooseWeighted (r : Nat) : Nat :=
  if r % 6 < 3 then 20 else if r % 6 < 5 then 40 else 60

/-- controllers.rs `QuizController::spin_wheel`: `none` for an unknown wheel or
an already-spun wheel; otherwise record and return a weighted draw.  `r` is the
rng draw. -/
def spinWheel (c : QuizController) (wheelName : Str) (r : Nat) (s : UserState) :
    Option Nat × UserState :=
  if c.wheel.contains wheelName then
    match mapGet s.wheels wheelName with
    | none =>
      let points := chooseWeighted r
      (some points, ⟨s.id, s.answers, mapInsert s.wheels wheelName points⟩)
    | some _ => (none, s)
  else (none, s)

/-- Number of `true` entries of an answer list (`answers.iter().filter(|&&a| a).count()`). -/
def correctCount (answers : List Bool) : Nat :=
  (answers.filter (fun a => a)).length

/-- `u32` wrapping (release-mode overflow semantics): reduce mod `2^32`. -/
def wrap32 (n : Nat) : Nat :=
  n % 2 ^ 32

/-- `Iterator::sum::<u32>()`: fold with `u32` wrapping addition. -/
def wrapSum (l : List Nat) : Nat :=
  l.foldl (fun acc x => wrap32 (acc + x)) 0

/-- Per-quiz score `(quiz.points * correct_answers) / quiz.questions.len()`:
the `u32` multiplication wraps on overflow (release semantics), then `u32`
division truncates; `none` models the division-by-zero panic when the quiz has
no questions. -/
def quizScore (quiz : Quiz) (answers : List Bool) : Option Nat :=
  if quiz.questions.length = 0 then none
  else some (wrap32 (quiz.points * correctCount answers) / quiz.questions.length)

/-- The per-quiz scores of `QuizController::points`: iterate over
`state.answers`, keep the quiz names the catalog knows (`filter_map`), and
score each; `none` if any score panics. -/
def quizScores (c : QuizController) : List (Str × List Bool) → Option (List Nat)
  | [] => some []
  | kv :: rest =>
    match mapGet c.quiz kv.1 with
    | none => quizScores c rest
    | some quiz =>
      match quizScore quiz kv.2, quizScores c rest with
      | some score, some scores => some (score :: scores)
      | _, _ => none

/-- controllers.rs `QuizController::points`: the `u32` sum of the per-quiz
scores plus the `u32` sum of all recorded wheel values, each sum and the final
addition wrapping on overflow (`sum::<u32>() + sum::<u32>()`). -/
def points (c : QuizController) (s : UserState) : Option Nat :=
  (quizScores c s.answers).map
    (fun scores => wrap32 (wrapSum scores + wrapSum (s.wheels.map (fun kv => kv.2))))

/-- The matched codes of `register_user`: deduplicate the submitted strings
case-sensitively (`BTreeSet`), look each up under `trim().to_lowercase()`, and
keep those whose validity window contains `now` (inclusive both ends). -/
def matchedCodes (c : QuizController) (codes : List Str) (now : Int) : List Code :=
  ((dedupSorted codes).filterMap (fun code => mapGet c.codes (toLowercase (trim code)))).filter
    (fun code => decide (code.valid_from ≤ now) && decide (code.valid_to ≥ now))

/-- controllers.rs `QuizController::register_user`: total points are the quiz
and wheel points of the state plus the `u32` (wrapping) sum of the matched
code points, the final addition also a wrapping `u32` addition; when the total is
positive exactly one `UserRecord` is appended (modelled as the returned record
list), otherwise nothing is written; the total is returned either way.  `none`
models the panic propagated from `points`.  The `consent` argument is accepted
as in the source, but models.rs's `UserRecord` has no field to carry it (see
claim C8). -/
def registerUser (c : QuizController) (codes : List Str) (email : Str) (consent : Bool)
    (s : UserState) (now : Int) : Option (Nat × List UserRecord) :=
  match points c s with
  | none => none
  | some basePoints =>
    let matched := matchedCodes c codes now
    let extraPoints := wrapSum (matched.map (fun code => code.points))
    let totalPoints := wrap32 (basePoints + extraPoints)
    if totalPoints > 0 then
      let codeNames := sortStrs (matched.map (fun code => code.code))
      let record : UserRecord :=
        ⟨hexEncode s.id, email, totalPoints, joinSpace codeNames, now⟩
      some (totalPoints, [record])
    else
      some (totalPoints, [])

/-- Little-endian fixed-width serialization of an integer into `k` bytes
(bincode writes `u64` lengths and `usize` values this way). -/
def serLE : Nat → Nat → List Nat
  | 0, _ => []
  | k + 1, n => n % 256 :: serLE k (n / 256)

/-- Read `k` little-endian bytes back into an integer. -/
def deserLE : Nat → List Nat → Option (Nat × List Nat)
  | 0, l => some (0, l)
  | _ + 1, [] => none
  | k + 1, b :: l =>
    match deserLE k l with
    | none => none
    | some (n, r) => some (b + 256 * n, r)

/-- Read `k` raw bytes. -/
def takeBytes : Nat → List Nat → Option (List Nat × List Nat)
  | 0, l => some ([], l)
  | _ + 1, [] => none
  | k + 1, b :: l =>
    match takeBytes k l with
    | none => none
    | some (xs, r) => some (b :: xs, r)

/-- bincode `String`: `u64` byte length followed by the UTF-8 bytes. -/
def serStr (s : Str) : List Nat :=
  serLE 8 s.length ++ s

/-- bincode `String` deserialization. -/
def deserStr (l : List Nat) : Option (Str × List Nat) :=
  match deserLE 8 l with
  | none => none
  | some (n, r) => takeBytes n r

/-- bincode `bool`: one byte, `0` or `1`. -/
def serBoolByte (b : Bool) : Nat :=
  if b then 1 else 0

/-- bincode `Vec<bool>`: `u64` length then one byte per element. -/
def serBools (v : List Bool) : List Nat :=
  serLE 8 v.length ++ v.map serBoolByte

/-- Read `k` bincode booleans; any byte other than `0`/`1` is invalid. -/
def deserBoolsN : Nat → List Nat → Option (List Bool × List Nat)
  | 0, l => some ([], l)
  | _ + 1, [] => none
  | k + 1, b :: l =>
    if b = 0 then
      match deserBoolsN k l with
      | none => none
      | some (v, r) => some (false :: v, r)
    else if b = 1 then
      match deserBoolsN k l with
      | none => none
      | some (v, r) => some (true :: v, r)
    else none

/-- bincode `Vec<bool>` deserialization. -/
def deserBools (l : List Nat) : Option (List Bool × List Nat) :=
  match deserLE 8 l with
  | none => none
  | some (n, r) => deserBoolsN n r

/-- bincode entry of `BTreeMap<String, Vec<bool>>`. -/
def serEntryB (kv : Str × List Bool) : List Nat :=
  serStr kv.1 ++ serBools kv.2

/-- bincode `BTreeMap<String, Vec<bool>>`: `u64` entry count then the entries. -/
def serMapB (m : List (Str × List Bool)) : List Nat :=
  serLE 8 m.length ++ (m.map serEntryB).flatten

/-- Read `k` entries of a `BTreeMap<String, Vec<bool>>`. -/
def deserEntriesB : Nat → List Nat → Option (List (Str × List Bool) × List Nat)
  | 0, l => some ([], l)
  | k + 1, l =>
    match deserStr l with
    | none => none
    | some (s, l1) =>
      match deserBools l1 with
      | none => none
      | some (v, l2) =>
        match deserEntriesB k l2 with
        | none => none
        | some (rest, r) => some ((s, v) :: rest, r)

/-- bincode `BTreeMap<String, Vec<bool>>` deserialization. -/
def deserMapB (l : List Nat) : Option (List (Str × List Bool) × List Nat) :=
  match deserLE 8 l with
  | none => none
  | some (n, r) => deserEntriesB n r

/-- bincode entry of `BTreeMap<String, u8>`: the key then the single value byte. -/
def serEntryU (kv : Str × Nat) : List Nat :=
  serStr kv.1 ++ [kv.2]

/-- bincode `BTreeMap<String, u8>`. -/
def serMapU (m : List (Str × Nat)) : List Nat :=
  serLE 8 m.length ++ (m.map serEntryU).flatten

/-- Read `k` entries of a `BTreeMap<String, u8>`. -/
def deserEntriesU : Nat → List Nat → Option (List (Str × Nat) × List Nat)
  | 0, l => some ([], l)
  | k + 1, l =>
    match deserStr l with
    | none => none
    | some (s, l1) =>
      match l1 with
      | [] => none
      | b :: l2 =>
        match deserEntriesU k l2 with
        | none => none
        | some (rest, r) => some ((s, b) :: rest, r)

/-- bincode `BTreeMap<String, u8>` deserialization. -/
def deserMapU (l : List Nat) : Option (List (Str × Nat) × List Nat) :=
  match deserLE 8 l with
  | none => none
  | some (n, r) => deserEntriesU n r

/-- `bincode::serialize` of a `UserState`: the `UserId([u8; 16])` newtype is 16
raw bytes (fixed arrays carry no length), then the two maps in field order. -/
def serUserState (s : UserState) : List Nat :=
  s.id ++ serMapB s.answers ++ serMapU s.wheels

/-- `bincode::deserialize` of a `UserState` (trailing bytes are ignored, as
`bincode::deserialize` does not reject them). -/
def deserUserState (l : List Nat) : Option UserState :=
  match takeBytes 16 l with
  | none => none
  | some (id, l1) =>
    match deserMapB l1 with
    | none => none
    | some (answers, l2) =>
      match deserMapU l2 with
      | none => none
      | some (wheels, _) => some ⟨id, answers, wheels⟩

/-- The base64 `URL_SAFE` alphabet character of a 6-bit value. -/
def b64Char (v : Nat) : Nat :=
  if v < 26 then 65 + v
  else if v < 52 then 97 + (v - 26)
  else if v < 62 then 48 + (v - 52)
  else if v = 62 then 45
  else 95

/-- Decode one `URL_SAFE` alphabet character back into its 6-bit value. -/
def b64CharDec (c : Nat) : Option Nat :=
  if 65 ≤ c ∧ c ≤ 90 then some (c - 65)
  else if 97 ≤ c ∧ c ≤ 122 then some (26 + (c - 97))
  else if 48 ≤ c ∧ c ≤ 57 then some (52 + (c - 48))
  else if c = 45 then some 62
  else if c = 95 then some 63
  else none

/-- `base64::encode_config(_, URL_SAFE_NO_PAD)`: 3 bytes to 4 characters, with
a 2- or 3-character final group and no padding. -/
def b64Encode : List Nat → List Nat
  | [] => []
  | [a] => [b64Char (a / 4), b64Char (a % 4 * 16)]
  | [a, b] => [b64Char (a / 4), b64Char (a % 4 * 16 + b / 16), b64Char (b % 16 * 4)]
  | a :: b :: c :: rest =>
    b64Char (a / 4) :: b64Char (a % 4 * 16 + b / 16) :: b64Char (b % 16 * 4 + c / 64) ::
      b64Char (c % 64) :: b64Encode rest

/-- `base64::decode_config(_, URL_SAFE_NO_PAD)`. -/
def b64Decode : List Nat → Option (List Nat)
  | [] => some []
  | [_] => none
  | [x, y] =>
    match b64CharDec x, b64CharDec y with
    | some x', some y' => some [x' * 4 + y' / 16]
    | _, _ => none
  | [x, y, z] =>
    match b64CharDec x, b64CharDec y, b64CharDec z with
    | some x', some y', some z' => some [x' * 4 + y' / 16, y' % 16 * 16 + z' / 4]
    | _, _, _ => none
  | x :: y :: z :: w :: rest =>
    match b64CharDec x, b64CharDec y, b64CharDec z, b64CharDec w, b64Decode rest with
    | some x', some y', some z', some w', some rest' =>
      some ((x' * 4 + y' / 16) :: (y' % 16 * 16 + z' / 4) :: (z' % 4 * 64 + w') :: rest')
    | _, _, _, _, _ => none

/-- controllers.rs `QuizController::encode_user`: bincode-serialize the state,
tag it with HMAC, and emit `base64url(bytes) ++ ":" ++ base64url(tag)` (byte 58
is `:`).  `tag` is the HMAC-SHA256 function with the controller's secret key
baked in. -/
def encodeUser (tag : List Nat → List Nat) (s : UserState) : List Nat :=
  let payload := serUserState s
  b64Encode payload ++ 58 :: b64Encode (tag payload)

/-- controllers.rs `QuizController::decode_user`: split on the first `:`
(`splitn(2, ':')`), base64-decode both parts, verify the HMAC tag by
recomputation, and bincode-deserialize the payload.  All failures collapse to
`none` (the Rust code returns distinct `anyhow` errors; which error is not part
of any claim here). -/
def decodeUser (tag : List Nat → List Nat) (token : List Nat) : Option UserState :=
  let userPart := token.takeWhile (fun c => decide (c ≠ 58))
  match token.dropWhile (fun c => decide (c ≠ 58)) with
  | [] => none
  | _ :: sigPart =>
    match b64Decode userPart, b64Decode sigPart with
    | some payload, some sig =>
      if tag payload = sig then deserUserState payload else none
    | _, _ => none

/-- The states representable by the Rust `UserState` type: the id is 16 bytes,
map keys are byte strings, wheel values are `u8`, and all lengths fit `usize`
(64-bit).  Every reachable Rust value satisfies this by construction. -/
def WfState (s : UserState) : Prop :=
  s.id.length = 16 ∧ (∀ b ∈ s.id, b < 256) ∧
  s.answers.length < 2 ^ 64 ∧
  (∀ kv ∈ s.answers, kv.1.length < 2 ^ 64 ∧ (∀ b ∈ kv.1, b < 256) ∧ kv.2.length < 2 ^ 64) ∧
  s.wheels.length < 2 ^ 64 ∧
  (∀ kv ∈ s.wheels, kv.1.length < 2 ^ 64 ∧ (∀ b ∈ kv.1, b < 256) ∧ kv.2 < 256)

instance (s : UserState) : Decidable (WfState s) := by
  unfold WfState
  infer_instance

/-- Length of the recorded answer list for a quiz (`len(state.answers[quiz])`,
0 when absent); the implicit state of the quiz state machine. -/
def quizProgress (s : UserState) (quizName : Str) : Nat :=
  ((mapGet s.answers quizName).map List.length).getD 0

/-- Specification-side per-quiz score of the amended claim C2: an unknown quiz
name contributes zero, a known one contributes
`floor(quiz.points * correct_count / quiz.questions.len())` with the product
reduced mod `2^32` (the `u32` wrapping the spec's plain formula omits; the two
coincide whenever the product fits `u32`). -/
def perQuizSpec (c : QuizController) (kv : Str × List Bool) : Nat :=
  match mapGet c.quiz kv.1 with
  | none => 0
  | some quiz => wrap32 (quiz.points * correctCount kv.2) / quiz.questions.length

/-- Specification-side restatement of the total score (amended claim C2): the
sum of the per-quiz scores over `state.answers` plus the sum of all recorded
wheel values, reduced mod `2^32` (`u32` sums).  Stated from the amended
claim's words, to be compared against `points`. -/
def specPoints (c : QuizController) (s : UserState) : Nat :=
  ((s.answers.map (perQuizSpec c)).sum + (s.wheels.map (fun kv => kv.2)).sum) % 2 ^ 32

/-- Concrete question: text `"q"`, correct answer `"a"`, incorrect `"b"`. -/
def exQuestion : QuizQuestion := ⟨[113], [[97]], [[98]]⟩

/-- Concrete quiz `"q1"` worth 100 points with 4 questions. -/
def exQuiz : Quiz := ⟨[113, 49], 100, [exQuestion, exQuestion, exQuestion, exQuestion]⟩

/-- Catalog holding only `exQuiz`. -/
def exCatalog : QuizController := QuizController.new [exQuiz] [] []

/-- State with 3 correct and 1 incorrect answer on `"q1"`. -/
def exState75 : UserState := ⟨List.replicate 16 0, [([113, 49], [true, true, true, false])], []⟩

/-- State with only 2 answers on `"q1"`, both correct. -/
def exState50 : UserState := ⟨List.replicate 16 0, [([113, 49], [true, true])], []⟩

/-- A fresh state with the all-zero 16-byte id. -/
def exEmptyState : UserState := createUser (List.replicate 16 0)

/-- Configured code with lower-case text `"abc"`, 10 points, valid on `[0, 100]`. -/
def lowCode : Code := ⟨[97, 98, 99], 10, 0, 100⟩

/-- Catalog holding only `lowCode`. -/
def lowCatalog : QuizController := QuizController.new [] [lowCode] []

/-- Configured code with upper-case text `"ABC"`, 10 points, valid on `[0, 100]`. -/
def upperCode : Code := ⟨[65, 66, 67], 10, 0, 100⟩

/-- Catalog holding only `upperCode`. -/
def upperCatalog : QuizController := QuizController.new [] [upperCode] []

/-- 2024-01-01 as days since the Unix epoch. -/
def day20240101 : Int := 19723

/-- 2024-01-15 as days since the Unix epoch. -/
def day20240115 : Int := 19737

/-- 2024-01-31 as days since the Unix epoch. -/
def day20240131 : Int := 19753

/-- 2024-02-01 as days since the Unix epoch. -/
def day20240201 : Int := 19754

/-- Configured code `"jan"` worth 5 points, valid 2024-01-01 through 2024-01-31. -/
def janCode : Code := ⟨[106, 97, 110], 5, day20240101, day20240131⟩

/-- Catalog holding only `janCode`. -/
def janCatalog : QuizController := QuizController.new [] [janCode] []

/-- Quiz `"z"` with an empty question list. -/
def emptyQuiz : Quiz := ⟨[122], 100, []⟩

/-- Catalog holding only `emptyQuiz`. -/
def emptyQuizCatalog : QuizController := QuizController.new [emptyQuiz] [] []

/-- State naming the catalog quiz `"z"` (which has no questions). -/
def refState : UserState := ⟨List.replicate 16 0, [([122], [true])], []⟩

/-- Catalog holding only the wheel `"w"`. -/
def wheelCatalog : QuizController := QuizController.new [] [] [⟨[119]⟩]

/-- A concrete stand-in for the keyed HMAC tag function. -/
def exTag : List Nat → List Nat := fun _ => [0]

/-- The record `register_user` appends for `lowCatalog`, submission `["abc"]`,
email `"e"`, empty quiz state, at time 50: id is the hex of 16 zero bytes. -/
def exRecord10 : UserRecord := ⟨List.replicate 32 48, [101], 10, [97, 98, 99], 50⟩

/-- The record for the duplicate-casing submission `["abc", "ABC"]`: 20 points
and the code name listed twice in the codes field (`"abc abc"`). -/
def exRecord20 : UserRecord :=
  ⟨List.replicate 32 48, [101], 20, [97, 98, 99, 32, 97, 98, 99], 50⟩

/-- Quiz `"b"` worth `2^31 + 1` points with 4 questions: its score computation
overflows `u32` as soon as 2 answers are correct. -/
def bigQuiz : Quiz := ⟨[98], 2147483649, [exQuestion, exQuestion, exQuestion, exQuestion]⟩

/-- Catalog holding only `bigQuiz`. -/
def bigCatalog : QuizController := QuizController.new [bigQuiz] [] []

/-- State with 2 correct answers on `"b"`. -/
def bigState : UserState := ⟨List.replicate 16 0, [([98], [true, true])], []⟩

/-- Configured code `"c1"` worth 3,000,000,000 points, valid on `[0, 100]`. -/
def bigCode1 : Code := ⟨[99, 49], 3000000000, 0, 100⟩

/-- Configured code `"c2"` worth 3,000,000,000 points, valid on `[0, 100]`. -/
def bigCode2 : Code := ⟨[99, 50], 3000000000, 0, 100⟩

/-- Catalog holding `bigCode1` and `bigCode2`: redeeming both overflows the
`u32` sum of code points. -/
def bigCodeCatalog : QuizController := QuizController.new [] [bigCode1, bigCode2] []

theorem mapGet_mapInsert_self {α : Type} (m : List (Str × α)) (k : Str) (v : α) :
    mapGet (mapInsert m k v) k = some v := by
  induction m with
  | nil => simp [mapInsert, mapGet]
  | cons kv rest ih =>
    by_cases h : kv.1 = k
    · simp [mapInsert, mapGet, h]
    · simp [mapInsert, mapGet, h, ih]

theorem quizScores_sum (c : QuizController) :
    ∀ (l : List (Str × List Bool)) (scores : List Nat),
      quizScores c l = some scores → scores.sum = (l.map (perQuizSpec c)).sum := by
  intro l
  induction l with
  | nil =>
    intro scores h
    simp only [quizScores, Option.some.injEq] at h
    subst h
    simp
  | cons kv rest ih =>
    intro scores h
    cases hq : mapGet c.quiz kv.1 with
    | none =>
      simp only [quizScores, hq] at h
      have hsum := ih scores h
      simp [perQuizSpec, hq, hsum]
    | some quiz =>
      cases hscore : quizScore quiz kv.2 with
      | none =>
        simp only [quizScores, hq, hscore] at h
        exact Option.noConfusion h
      | some sc =>
        cases hrest : quizScores c rest with
        | none =>
          simp only [quizScores, hq, hscore, hrest] at h
          exact Option.noConfusion h
        | some scs =>
          simp only [quizScores, hq, hscore, hrest, Option.some.injEq] at h
          subst h
          have hsum := ih scs hrest
          unfold quizScore at hscore
          by_cases h0 : quiz.questions.length = 0
          · simp [h0] at hscore
          · simp only [if_neg h0, Option.some.injEq] at hscore
            subst hscore
            simp [perQuizSpec, hq, hsum]

theorem wrapSum_go (l : List Nat) : ∀ acc : Nat, acc < 2 ^ 32 →
    l.foldl (fun a x => wrap32 (a + x)) acc = (acc + l.sum) % 2 ^ 32 := by
  induction l with
  | nil =>
    intro acc h
    simp only [List.foldl_nil, List.sum_nil, Nat.add_zero]
    exact (Nat.mod_eq_of_lt h).symm
  | cons x xs ih =>
    intro acc h
    have h2 : wrap32 (acc + x) < 2 ^ 32 := Nat.mod_lt _ (by norm_num)
    rw [List.foldl_cons, ih (wrap32 (acc + x)) h2, List.sum_cons]
    simp only [wrap32, Nat.mod_add_mod]
    rw [Nat.add_assoc]

theorem wrapSum_eq (l : List Nat) : wrapSum l = l.sum % 2 ^ 32 := by
  simpa [wrapSum] using wrapSum_go l 0 (by norm_num)

/-- Claim C2 (amended): whenever `points` returns a value, that value is the
sum over the quiz names in `state.answers` that the catalog knows of
`floor(quiz.points * correct_count / quiz.questions.len())` — with the product
reduced mod `2^32`, the `u32` wrapping — (truncating division, denominator the
quiz's total question count, unknown quiz names contributing zero) plus the
sum of all recorded wheel values, the sums also `u32` (mod `2^32`); the
amendment changes nothing when every intermediate fits `u32`, and in
particular a 100-point 4-question quiz with 3 correct answers out of 4
recorded yields 75 and with only 2 answers, both correct, yields 50. -/
theorem points_matches_spec :
    (∀ (c : QuizController) (s : UserState) (p : Nat),
      points c s = some p → p = specPoints c s) ∧
    points exCatalog exState75 = some 75 ∧ points exCatalog exState50 = some 50 := by
  refine ⟨?_, by decide, by decide⟩
  intro c s p h
  unfold points at h
  cases hq : quizScores c s.answers with
  | none => rw [hq] at h; cases h
  | some scores =>
    rw [hq] at h
    simp only [Option.map_some', Option.some.injEq] at h
    subst h
    rw [specPoints, ← quizScores_sum c s.answers scores hq]
    simp only [wrap32, wrapSum_eq]
    rw [← Nat.add_mod]

/-- Witness for C2 at the concrete 3-of-4 example. -/
theorem points_matches_spec_witness : 75 = specPoints exCatalog exState75 :=
  points_matches_spec.1 exCatalog exState75 75 (by decide)

/-- Counterexample to claim C2 as stated: for a quiz worth `2^31 + 1` points
with 2 of its 4 questions answered correctly, the program's `u32`
multiplication wraps (`(2^31 + 1) * 2 mod 2^32 = 2`), so `points` yields
`2 / 4 = 0`, while the claim's unbounded formula yields
`(2^31 + 1) * 2 / 4 = 2^30`. -/
theorem points_unbounded_formula_fails :
    points bigCatalog bigState = some 0 ∧
    bigQuiz.points * correctCount [true, true] / bigQuiz.questions.length = 1073741824 := by
  refine ⟨by decide, by decide⟩

theorem quizScores_total (c : QuizController) :
    ∀ l : List (Str × List Bool),
      (∀ kv ∈ l, ∀ quiz, mapGet c.quiz kv.1 = some quiz → quiz.questions.length ≠ 0) →
      ∃ scores, quizScores c l = some scores := by
  intro l
  induction l with
  | nil => intro _; exact ⟨[], rfl⟩
  | cons kv rest ih =>
    intro h
    have hrest := ih (fun kv' h' quiz hq => h kv' (List.mem_cons_of_mem kv h') quiz hq)
    obtain ⟨scores, hscores⟩ := hrest
    cases hq : mapGet c.quiz kv.1 with
    | none => exact ⟨scores, by simp only [quizScores, hq, hscores]⟩
    | some quiz =>
      have hne := h kv (List.mem_cons_self kv rest) quiz hq
      refine ⟨wrap32 (quiz.points * correctCount kv.2) / quiz.questions.length :: scores, ?_⟩
      simp only [quizScores, hq, hscores, quizScore, if_neg hne]

/-- Claim C9: `points` is total exactly under the precondition that every
catalog quiz named in `state.answers` has at least one question: a state naming
a catalog quiz with an empty question list reaches the division-by-zero
(panic) branch, modelled as `none`, and under the precondition the function
always produces a value. -/
theorem points_division_guard_spec :
    points emptyQuizCatalog refState = none ∧
    (∀ (c : QuizController) (s : UserState),
      (∀ kv ∈ s.answers, ∀ quiz, mapGet c.quiz kv.1 = some quiz →
        quiz.questions.length ≠ 0) →
      ∃ p, points c s = some p) := by
  refine ⟨by decide, ?_⟩
  intro c s h
  obtain ⟨scores, hscores⟩ := quizScores_total c s.answers h
  exact ⟨wrap32 (wrapSum scores + wrapSum (s.wheels.map (fun kv => kv.2))),
    by simp [points, hscores]⟩

/-- Witness for C9: the precondition holds for the concrete 4-question catalog
and state, and `points` is defined there. -/
theorem points_division_guard_spec_witness : ∃ p, points exCatalog exState75 = some p :=
  points_division_guard_spec.2 exCatalog exState75 (by
    intro kv hkv quiz hq
    have hkv' : kv = ([113, 49], [true, true, true, false]) := by
      simpa [exState75] using hkv
    subst hkv'
    have hmap : mapGet exCatalog.quiz [113, 49] = some exQuiz := by decide
    rw [hmap] at hq
    cases Option.some.inj hq
    decide)

/-- Claim C10: submitting two distinct-cased spellings of the same lower-case
configured code makes both survive the case-sensitive deduplication, match the
same catalog entry, and contribute its points twice: with `lowCode` (`"abc"`,
10 points, valid at time 50), submitting `["abc", "ABC"]` yields 20 points and
a record whose codes field is `"abc abc"`. -/
theorem register_double_count_duplicate_casing :
    registerUser lowCatalog [[97, 98, 99], [65, 66, 67]] [101] true exEmptyState 50 =
      some (20, [exRecord20]) ∧
    (matchedCodes lowCatalog [[97, 98, 99], [65, 66, 67]] 50).length = 2 ∧
    lowCode.points = 10 ∧ exRecord20.codes = [97, 98, 99] ++ 32 :: [97, 98, 99] := by
  refine ⟨by decide, by decide, by decide, by decide⟩

/-- Claim C8 (documenting the models.rs/controllers.rs mismatch): the record
appended by `register_user` cannot carry the caller's consent flag, because
models.rs's `UserRecord` declares only the fields `id, email, points, codes,
time`; at a concrete redeeming input the result — including the single appended
record — is identical for `consent = true` and `consent = false`. -/
theorem register_consent_dropped :
    registerUser lowCatalog [[97, 98, 99]] [101] true exEmptyState 50 =
      registerUser lowCatalog [[97, 98, 99]] [101] false exEmptyState 50 ∧
    registerUser lowCatalog [[97, 98, 99]] [101] true exEmptyState 50 =
      some (10, [exRecord10]) := by
  refine ⟨by decide, by decide⟩

/-- Counterexample to claim C5: `QuizController::new` keys the code map by the
verbatim configured text, while lookup lower-cases/trims the submission; a
configured code whose text is upper-case (`"ABC"`, valid at time 50) is matched
by no submission — not even by its own exact text — so register yields 0
points and writes nothing. -/
theorem uppercase_code_never_matches :
    mapGet upperCatalog.codes [65, 66, 67] = some upperCode ∧
    upperCode.valid_from ≤ 50 ∧ (50 : Int) ≤ upperCode.valid_to ∧
    matchedCodes upperCatalog [[65, 66, 67]] 50 = [] ∧
    registerUser upperCatalog [[65, 66, 67]] [101] true exEmptyState 50 = some (0, []) := by
  refine ⟨by decide, by decide, by decide, by decide, by decide⟩

/-- Claim C5 (amended): matching lower-cases and trims only the submitted
string and compares it against the configured code key verbatim; hence any
casing or surrounding-whitespace variant of a configured code's text is
matched provided the configured text is itself lower-case and trimmed. -/
theorem code_matching_normalized_submission (c : QuizController) (k sub : Str) (code : Code)
    (now : Int) (hk : mapGet c.codes k = some code) (hnorm : toLowercase (trim k) = k)
    (hvar : toLowercase (trim sub) = toLowercase (trim k))
    (hfrom : code.valid_from ≤ now) (hto : now ≤ code.valid_to) :
    matchedCodes c [sub] now = [code] := by
  have hlook : mapGet c.codes (toLowercase (trim sub)) = some code := by
    rw [hvar, hnorm]
    exact hk
  simp [matchedCodes, dedupSorted, setInsert, hlook, hfrom, hto, ge_iff_le]

/-- Witness for the amended C5: the padded upper-case variant `" ABC "` of the
configured lower-case code `"abc"` matches it. -/
theorem code_matching_normalized_submission_witness :
    matchedCodes lowCatalog [[32, 65, 66, 67, 32]] 50 = [lowCode] :=
  code_matching_normalized_submission lowCatalog [97, 98, 99] [32, 65, 66, 67, 32] lowCode 50
    (by decide) (by decide) (by decide) (by decide) (by decide)

/-- Claim C6: a code found in the catalog is counted by register exactly when
`valid_from <= now <= valid_to` (inclusive at both ends); concretely, a code
valid 2024-01-01 through 2024-01-31 is accepted at 2024-01-15 and rejected at
2024-02-01; an unknown code string is silently ignored (no error, no points). -/
theorem code_window_inclusive_spec :
    (∀ (c : QuizController) (sub : Str) (code : Code) (now : Int),
      mapGet c.codes (toLowercase (trim sub)) = some code →
      (code ∈ matchedCodes c [sub] now ↔ code.valid_from ≤ now ∧ now ≤ code.valid_to)) ∧
    (∀ (c : QuizController) (sub : Str) (now : Int),
      mapGet c.codes (toLowercase (trim sub)) = none → matchedCodes c [sub] now = []) ∧
    matchedCodes janCatalog [[106, 97, 110]] day20240115 = [janCode] ∧
    matchedCodes janCatalog [[106, 97, 110]] day20240201 = [] ∧
    (registerUser janCatalog [[106, 97, 110]] [101] true exEmptyState day20240115).map
      Prod.fst = some 5 ∧
    (registerUser janCatalog [[106, 97, 110]] [101] true exEmptyState day20240201).map
      Prod.fst = some 0 ∧
    registerUser janCatalog [[120]] [101] true exEmptyState day20240115 = some (0, []) := by
  refine ⟨?_, ?_, by decide, by decide, by decide, by decide, by decide⟩
  · intro c sub code now hlook
    simp [matchedCodes, dedupSorted, setInsert, hlook, List.mem_filter, ge_iff_le]
  · intro c sub now hlook
    simp [matchedCodes, dedupSorted, setInsert, hlook]

/-- Witness for C6: the January code is counted at 2024-01-15. -/
theorem code_window_inclusive_spec_witness :
    janCode ∈ matchedCodes janCatalog [[106, 97, 110]] day20240115 :=
  (code_window_inclusive_spec.1 janCatalog [106, 97, 110] janCode day20240115
    (by decide)).mpr (by decide)

/-- Claim C7 (amended): when register returns, the returned total is the
state's base points plus the matched code points, the sum and the addition
taken as `u32` (reduced mod `2^32`, the wrapping the claim's plain sum omits;
identical whenever the total fits `u32`); no record is written when the total
is 0 and exactly one record is written when it is positive — and the total is
returned in both cases (it is the first component of the result either way). -/
theorem register_write_spec (c : QuizController) (codes : List Str) (email : Str)
    (consent : Bool) (s : UserState) (now : Int) (total : Nat) (recs : List UserRecord)
    (h : registerUser c codes email consent s now = some (total, recs)) :
    (∀ base, points c s = some base →
      total =
        (base + ((matchedCodes c codes now).map (fun code => code.points)).sum) % 2 ^ 32) ∧
    (total = 0 → recs = []) ∧ (0 < total → recs.length = 1) := by
  cases hp : points c s with
  | none =>
    simp only [registerUser, hp] at h
    exact Option.noConfusion h
  | some base =>
    simp only [registerUser, hp] at h
    split at h
    case isTrue hpos =>
      simp only [Option.some.injEq, Prod.mk.injEq] at h
      obtain ⟨h1, h2⟩ := h
      subst h1
      subst h2
      refine ⟨?_, ?_, ?_⟩
      · intro base' hbase'
        cases Option.some.inj hbase'
        simp only [wrap32, wrapSum_eq, Nat.add_mod_mod]
      · intro h0
        omega
      · intro _
        rfl
    case isFalse hneg =>
      simp only [Option.some.injEq, Prod.mk.injEq] at h
      obtain ⟨h1, h2⟩ := h
      subst h1
      subst h2
      refine ⟨?_, ?_, ?_⟩
      · intro base' hbase'
        cases Option.some.inj hbase'
        simp only [wrap32, wrapSum_eq, Nat.add_mod_mod]
      · intro _
        rfl
      · intro hcon
        omega

/-- Witness for C7 at a concrete redeeming call: base 0, one matched 10-point
code, total 10, exactly one record. -/
theorem register_write_spec_witness :
    (∀ base, points lowCatalog exEmptyState = some base →
      10 = (base +
        ((matchedCodes lowCatalog [[97, 98, 99]] 50).map (fun code => code.points)).sum) %
          2 ^ 32) ∧
    ((10 : Nat) = 0 → ([exRecord10] : List UserRecord) = []) ∧
    (0 < 10 → ([exRecord10] : List UserRecord).length = 1) :=
  register_write_spec lowCatalog [[97, 98, 99]] [101] true exEmptyState 50 10 [exRecord10]
    (by decide)

/-- Counterexample to claim C7 as stated: redeeming the two valid
3,000,000,000-point codes `"c1"` and `"c2"` from a zero-point state makes the
claim's total (base plus the plain sum of matched code points) 6,000,000,000,
but the program's wrapping `u32` sum makes the call return
`6000000000 - 2^32 = 1705032704` instead. -/
theorem register_total_wraps :
    (registerUser bigCodeCatalog [[99, 49], [99, 50]] [101] true exEmptyState 50).map
      Prod.fst = some 1705032704 ∧
    points bigCodeCatalog exEmptyState = some 0 ∧
    ((matchedCodes bigCodeCatalog [[99, 49], [99, 50]] 50).map
      (fun code => code.points)).sum = 6000000000 := by
  refine ⟨by decide, by decide, by decide⟩

theorem quizProgress_eq_getD (s : UserState) (n : Str) :
    quizProgress s n = ((mapGet s.answers n).getD []).length := by
  cases h : mapGet s.answers n <;> simp [quizProgress, h]

theorem answerQuestion_eq_unknown (c : QuizController) (quizName : Str) (s : UserState)
    (answer : Str) (hq : mapGet c.quiz quizName = none) :
    answerQuestion c quizName s answer = (none, s) := by
  simp [answerQuestion, nextQuestion, hq]

theorem answerQuestion_eq_past (c : QuizController) (quizName : Str) (s : UserState)
    (answer : Str) (quiz : Quiz) (hq : mapGet c.quiz quizName = some quiz)
    (hget : quiz.questions.get? (quizProgress s quizName) = none) :
    answerQuestion c quizName s answer = (none, s) := by
  cases ha : mapGet s.answers quizName with
  | none =>
    have hprog : quizProgress s quizName = 0 := by simp [quizProgress, ha]
    rw [hprog, List.get?_eq_getElem?] at hget
    simp [answerQuestion, nextQuestion, hq, ha, hget]
  | some answers =>
    have hprog : quizProgress s quizName = answers.length := by simp [quizProgress, ha]
    rw [hprog, List.get?_eq_getElem?] at hget
    simp [answerQuestion, nextQuestion, hq, ha, hget]

theorem answerQuestion_eq_hit (c : QuizController) (quizName : Str) (s : UserState)
    (answer : Str) (quiz : Quiz) (q : QuizQuestion)
    (hq : mapGet c.quiz quizName = some quiz)
    (hget : quiz.questions.get? (quizProgress s quizName) = some q) :
    answerQuestion c quizName s answer =
      (some (q.correct.any (fun correct => correct = answer), q),
       ⟨s.id,
        mapInsert s.answers quizName
          (((mapGet s.answers quizName).getD []) ++
            [q.correct.any (fun correct => correct = answer)]),
        s.wheels⟩) := by
  cases ha : mapGet s.answers quizName with
  | none =>
    have hprog : quizProgress s quizName = 0 := by simp [quizProgress, ha]
    rw [hprog, List.get?_eq_getElem?] at hget
    simp [answerQuestion, nextQuestion, hq, ha, hget]
  | some answers =>
    have hprog : quizProgress s quizName = answers.length := by simp [quizProgress, ha]
    rw [hprog, List.get?_eq_getElem?] at hget
    simp [answerQuestion, nextQuestion, hq, ha, hget]

/-- Claim C3: for a quiz known to the catalog, every call to `answer_question`
that returns a pair advances `len(state.answers[quiz])` by exactly 1 and the
new length never exceeds the quiz's question count; a call made when the quiz
is unknown, or when the recorded length already equals the question count,
returns `none` and leaves the state unchanged. -/
theorem answerQuestion_progress_spec (c : QuizController) (quizName : Str) (s : UserState)
    (answer : Str) :
    (∀ quiz, mapGet c.quiz quizName = some quiz →
      (∀ result s', answerQuestion c quizName s answer = (some result, s') →
        quizProgress s' quizName = quizProgress s quizName + 1 ∧
        quizProgress s' quizName ≤ quiz.questions.length) ∧
      (quizProgress s quizName = quiz.questions.length →
        answerQuestion c quizName s answer = (none, s))) ∧
    (mapGet c.quiz quizName = none → answerQuestion c quizName s answer = (none, s)) := by
  refine ⟨?_, ?_⟩
  · intro quiz hq
    refine ⟨?_, ?_⟩
    · intro result s' hcall
      cases hget : quiz.questions.get? (quizProgress s quizName) with
      | none =>
        rw [answerQuestion_eq_past c quizName s answer quiz hq hget] at hcall
        exact absurd hcall (by simp)
      | some q =>
        rw [answerQuestion_eq_hit c quizName s answer quiz q hq hget] at hcall
        have hlt : quizProgress s quizName < quiz.questions.length := by
          by_contra hge
          rw [List.get?_eq_none.mpr (Nat.le_of_not_lt hge)] at hget
          exact Option.noConfusion hget
        simp only [Prod.mk.injEq] at hcall
        obtain ⟨-, hs'⟩ := hcall
        subst hs'
        have hnew : quizProgress
            (⟨s.id,
              mapInsert s.answers quizName
                (((mapGet s.answers quizName).getD []) ++
                  [q.correct.any (fun correct => correct = answer)]),
              s.wheels⟩ : UserState) quizName =
            quizProgress s quizName + 1 := by
          rw [quizProgress_eq_getD, quizProgress_eq_getD]
          simp [mapGet_mapInsert_self]
        exact ⟨hnew, by omega⟩
    · intro hlen
      exact answerQuestion_eq_past c quizName s answer quiz hq
        (List.get?_eq_none.mpr (le_of_eq hlen.symm))
  · intro hq
    exact answerQuestion_eq_unknown c quizName s answer hq

/-- Witness for C3: answering the first question of the 4-question quiz from a
fresh state advances the recorded length from 0 to 1. -/
theorem answerQuestion_progress_spec_witness :
    quizProgress (⟨exEmptyState.id, [([113, 49], [true])], []⟩ : UserState) [113, 49] =
      quizProgress exEmptyState [113, 49] + 1 ∧
    quizProgress (⟨exEmptyState.id, [([113, 49], [true])], []⟩ : UserState) [113, 49] ≤
      exQuiz.questions.length :=
  ((answerQuestion_progress_spec exCatalog [113, 49] exEmptyState [97]).1 exQuiz
    (by decide)).1 (true, exQuestion) ⟨exEmptyState.id, [([113, 49], [true])], []⟩ (by decide)

/-- Claim C4: `spin_wheel` returns `none` for a wheel name not in the catalog;
returns `none` leaving the state (and hence the previously recorded value)
unchanged when the wheel was already spun; and otherwise returns the weighted
draw — always one of 20, 40, 60, with weights 3, 2, 1 over the six equally
likely draws — and records exactly that value under the wheel's name. -/
theorem spinWheel_spec (c : QuizController) (wheelName : Str) (r : Nat) (s : UserState) :
    (c.wheel.contains wheelName = false → spinWheel c wheelName r s = (none, s)) ∧
    (∀ v, mapGet s.wheels wheelName = some v → spinWheel c wheelName r s = (none, s)) ∧
    (c.wheel.contains wheelName = true → mapGet s.wheels wheelName = none →
      spinWheel c wheelName r s =
        (some (chooseWeighted r),
         ⟨s.id, s.answers, mapInsert s.wheels wheelName (chooseWeighted r)⟩) ∧
      (chooseWeighted r = 20 ∨ chooseWeighted r = 40 ∨ chooseWeighted r = 60) ∧
      mapGet (mapInsert s.wheels wheelName (chooseWeighted r)) wheelName =
        some (chooseWeighted r)) ∧
    ((List.range 6).filter (fun d => decide (chooseWeighted d = 20))).length = 3 ∧
    ((List.range 6).filter (fun d => decide (chooseWeighted d = 40))).length = 2 ∧
    ((List.range 6).filter (fun d => decide (chooseWeighted d = 60))).length = 1 := by
  refine ⟨?_, ?_, ?_, by decide, by decide, by decide⟩
  · intro h
    unfold spinWheel
    rw [h]
    simp
  · intro v hv
    by_cases h : c.wheel.contains wheelName
    · unfold spinWheel
      rw [h, hv]
      simp
    · unfold spinWheel
      rw [Bool.eq_false_iff.mpr h]
      simp
  · intro h hnone
    refine ⟨?_, ?_, mapGet_mapInsert_self s.wheels wheelName _⟩
    · unfold spinWheel
      rw [h, hnone]
      simp
    · unfold chooseWeighted
      split
      · exact Or.inl rfl
      split
      · exact Or.inr (Or.inl rfl)
      · exact Or.inr (Or.inr rfl)

/-- Witness for C4: spinning the known wheel `"w"` on a fresh state with draw 0
records and returns 20 points. -/
theorem spinWheel_spec_witness :
    spinWheel wheelCatalog [119] 0 exEmptyState =
      (some (chooseWeighted 0),
       ⟨exEmptyState.id, exEmptyState.answers,
        mapInsert exEmptyState.wheels [119] (chooseWeighted 0)⟩) ∧
    (chooseWeighted 0 = 20 ∨ chooseWeighted 0 = 40 ∨ chooseWeighted 0 = 60) ∧
    mapGet (mapInsert exEmptyState.wheels [119] (chooseWeighted 0)) [119] =
      some (chooseWeighted 0) :=
  (spinWheel_spec wheelCatalog [119] 0 exEmptyState).2.2.1 (by decide) (by decide)

theorem serLE_lt (k n : Nat) : ∀ b ∈ serLE k n, b < 256 := by
  induction k generalizing n with
  | zero => intro b hb; simp [serLE] at hb
  | succ k ih =>
    intro b hb
    simp only [serLE, List.mem_cons] at hb
    cases hb with
    | inl h => subst h; exact Nat.mod_lt _ (by norm_num)
    | inr h => exact ih (n / 256) b h

theorem deserLE_serLE : ∀ (k n : Nat) (r : List Nat), n < 256 ^ k →
    deserLE k (serLE k n ++ r) = some (n, r) := by
  intro k
  induction k with
  | zero =>
    intro n r h
    simp only [pow_zero, Nat.lt_one_iff] at h
    subst h
    rfl
  | succ k ih =>
    intro n r h
    have hdiv : n / 256 < 256 ^ k := by
      rw [Nat.div_lt_iff_lt_mul (by norm_num)]
      calc n < 256 ^ (k + 1) := h
        _ = 256 ^ k * 256 := by rw [pow_succ]
    simp only [serLE, List.cons_append, List.append_eq, deserLE, ih (n / 256) r hdiv,
      Option.some.injEq, Prod.mk.injEq, and_true]
    omega

theorem takeBytes_append : ∀ (xs r : List Nat), takeBytes xs.length (xs ++ r) = some (xs, r) := by
  intro xs
  induction xs with
  | nil => intro r; rfl
  | cons b rest ih =>
    intro r
    simp only [List.length_cons, List.cons_append, takeBytes, List.append_eq, ih r]

theorem deserStr_serStr (s : Str) (r : List Nat) (h : s.length < 2 ^ 64) :
    deserStr (serStr s ++ r) = some (s, r) := by
  have h8 : s.length < 256 ^ 8 := by
    have : (2 : Nat) ^ 64 = 256 ^ 8 := by norm_num
    omega
  simp only [serStr, deserStr, List.append_assoc, deserLE_serLE 8 s.length (s ++ r) h8,
    takeBytes_append]

theorem deserBoolsN_ser : ∀ (v : List Bool) (r : List Nat),
    deserBoolsN v.length (v.map serBoolByte ++ r) = some (v, r) := by
  intro v
  induction v with
  | nil => intro r; rfl
  | cons b rest ih =>
    intro r
    cases b <;> simp [deserBoolsN, serBoolByte, ih r]

theorem deserBools_serBools (v : List Bool) (r : List Nat) (h : v.length < 2 ^ 64) :
    deserBools (serBools v ++ r) = some (v, r) := by
  have h8 : v.length < 256 ^ 8 := by
    have : (2 : Nat) ^ 64 = 256 ^ 8 := by norm_num
    omega
  simp only [serBools, deserBools, List.append_assoc,
    deserLE_serLE 8 v.length (v.map serBoolByte ++ r) h8, deserBoolsN_ser]

theorem deserEntriesB_ser : ∀ (m : List (Str × List Bool)) (r : List Nat),
    (∀ kv ∈ m, kv.1.length < 2 ^ 64 ∧ kv.2.length < 2 ^ 64) →
    deserEntriesB m.length ((m.map serEntryB).flatten ++ r) = some (m, r) := by
  intro m
  induction m with
  | nil => intro r _; rfl
  | cons kv rest ih =>
    intro r h
    have hkv := h kv (List.mem_cons_self kv rest)
    have hrest := ih r (fun kv' h' => h kv' (List.mem_cons_of_mem kv h'))
    simp only [List.map_cons, List.flatten_cons, List.length_cons, serEntryB,
      List.append_assoc, List.append_eq, List.nil_append, deserEntriesB,
      deserStr_serStr kv.1 _ hkv.1, deserBools_serBools kv.2 _ hkv.2, hrest,
      Prod.mk.eta]

theorem deserMapB_serMapB (m : List (Str × List Bool)) (r : List Nat)
    (hlen : m.length < 2 ^ 64)
    (h : ∀ kv ∈ m, kv.1.length < 2 ^ 64 ∧ kv.2.length < 2 ^ 64) :
    deserMapB (serMapB m ++ r) = some (m, r) := by
  have h8 : m.length < 256 ^ 8 := by
    have : (2 : Nat) ^ 64 = 256 ^ 8 := by norm_num
    omega
  simp only [serMapB, deserMapB, List.append_assoc,
    deserLE_serLE 8 m.length ((m.map serEntryB).flatten ++ r) h8, deserEntriesB_ser m r h]

theorem deserEntriesU_ser : ∀ (m : List (Str × Nat)) (r : List Nat),
    (∀ kv ∈ m, kv.1.length < 2 ^ 64) →
    deserEntriesU m.length ((m.map serEntryU).flatten ++ r) = some (m, r) := by
  intro m
  induction m with
  | nil => intro r _; rfl
  | cons kv rest ih =>
    intro r h
    have hkv := h kv (List.mem_cons_self kv rest)
    have hrest := ih r (fun kv' h' => h kv' (List.mem_cons_of_mem kv h'))
    simp only [List.map_cons, List.flatten_cons, List.length_cons, serEntryU,
      List.append_assoc, List.append_eq, List.nil_append, deserEntriesU, List.cons_append,
      deserStr_serStr kv.1 _ hkv, hrest, Prod.mk.eta]

theorem deserMapU_serMapU (m : List (Str × Nat)) (r : List Nat)
    (hlen : m.length < 2 ^ 64) (h : ∀ kv ∈ m, kv.1.length < 2 ^ 64) :
    deserMapU (serMapU m ++ r) = some (m, r) := by
  have h8 : m.length < 256 ^ 8 := by
    have : (2 : Nat) ^ 64 = 256 ^ 8 := by norm_num
    omega
  simp only [serMapU, deserMapU, List.append_assoc,
    deserLE_serLE 8 m.length ((m.map serEntryU).flatten ++ r) h8, deserEntriesU_ser m r h]

theorem deserUserState_serUserState (s : UserState) (hs : WfState s) :
    deserUserState (serUserState s) = some s := by
  obtain ⟨hid, -, halen, hawf, hwlen, hwwf⟩ := hs
  have hB : deserMapB (serMapB s.answers ++ serMapU s.wheels) =
      some (s.answers, serMapU s.wheels) :=
    deserMapB_serMapB s.answers (serMapU s.wheels) halen
      (fun kv h => ⟨(hawf kv h).1, (hawf kv h).2.2⟩)
  have hU : deserMapU (serMapU s.wheels) = some (s.wheels, []) := by
    have := deserMapU_serMapU s.wheels [] hwlen (fun kv h => (hwwf kv h).1)
    rwa [List.append_nil] at this
  unfold serUserState deserUserState
  rw [List.append_assoc, ← hid, takeBytes_append]
  simp only [hB, hU]

theorem b64CharDec_b64Char : ∀ v : Nat, v < 64 → b64CharDec (b64Char v) = some v := by
  decide

theorem b64Char_ne_colon (v : Nat) : b64Char v ≠ 58 := by
  unfold b64Char
  split
  · omega
  split
  · omega
  split
  · omega
  split
  · omega
  omega

theorem b64Encode_mem_ne_colon : ∀ (l : List Nat), ∀ ch ∈ b64Encode l, ch ≠ 58 := by
  intro l
  induction l using b64Encode.induct with
  | case1 => simp [b64Encode]
  | case2 a =>
    intro ch hch
    simp only [b64Encode, List.mem_cons, List.not_mem_nil, or_false] at hch
    rcases hch with h | h <;> (subst h; exact b64Char_ne_colon _)
  | case3 a b =>
    intro ch hch
    simp only [b64Encode, List.mem_cons, List.not_mem_nil, or_false] at hch
    rcases hch with h | h | h <;> (subst h; exact b64Char_ne_colon _)
  | case4 a b c rest ih =>
    intro ch hch
    simp only [b64Encode, List.mem_cons] at hch
    rcases hch with h | h | h | h | h
    · subst h; exact b64Char_ne_colon _
    · subst h; exact b64Char_ne_colon _
    · subst h; exact b64Char_ne_colon _
    · subst h; exact b64Char_ne_colon _
    · exact ih ch h

theorem b64Decode_b64Encode : ∀ (l : List Nat), (∀ b ∈ l, b < 256) →
    b64Decode (b64Encode l) = some l := by
  intro l
  induction l using b64Encode.induct with
  | case1 => intro _; rfl
  | case2 a =>
    intro h
    have ha : a < 256 := h a (by simp)
    simp only [b64Encode, b64Decode, b64CharDec_b64Char (a / 4) (by omega),
      b64CharDec_b64Char (a % 4 * 16) (by omega), Option.some.injEq, List.cons.injEq,
      and_true]
    omega
  | case3 a b =>
    intro h
    have ha : a < 256 := h a (by simp)
    have hb : b < 256 := h b (by simp)
    simp only [b64Encode, b64Decode, b64CharDec_b64Char (a / 4) (by omega),
      b64CharDec_b64Char (a % 4 * 16 + b / 16) (by omega),
      b64CharDec_b64Char (b % 16 * 4) (by omega), Option.some.injEq, List.cons.injEq,
      and_true]
    constructor
    · omega
    · omega
  | case4 a b c rest ih =>
    intro h
    have ha : a < 256 := h a (by simp)
    have hb : b < 256 := h b (by simp)
    have hc : c < 256 := h c (by simp)
    have hrest := ih (fun x hx => h x (by simp [hx]))
    simp only [b64Encode, b64Decode, b64CharDec_b64Char (a / 4) (by omega),
      b64CharDec_b64Char (a % 4 * 16 + b / 16) (by omega),
      b64CharDec_b64Char (b % 16 * 4 + c / 64) (by omega),
      b64CharDec_b64Char (c % 64) (by omega), hrest, Option.some.injEq, List.cons.injEq,
      and_true]
    refine ⟨by omega, by omega, by omega⟩

theorem serStr_lt (s : Str) (h : ∀ b ∈ s, b < 256) : ∀ b ∈ serStr s, b < 256 := by
  intro b hb
  simp only [serStr, List.mem_append] at hb
  rcases hb with h1 | h1
  · exact serLE_lt 8 s.length b h1
  · exact h b h1

theorem serBoolByte_lt (x : Bool) : serBoolByte x < 256 := by
  cases x <;> simp [serBoolByte]

theorem serBools_lt (v : List Bool) : ∀ b ∈ serBools v, b < 256 := by
  intro b hb
  simp only [serBools, List.mem_append, List.mem_map] at hb
  rcases hb with h1 | ⟨x, -, hx⟩
  · exact serLE_lt 8 v.length b h1
  · subst hx; exact serBoolByte_lt x

theorem serMapB_lt (m : List (Str × List Bool)) (h : ∀ kv ∈ m, ∀ b ∈ kv.1, b < 256) :
    ∀ b ∈ serMapB m, b < 256 := by
  intro b hb
  simp only [serMapB, List.mem_append, List.mem_flatten, List.mem_map] at hb
  rcases hb with h1 | ⟨bytes, ⟨kv, hkv, hser⟩, hbytes⟩
  · exact serLE_lt 8 m.length b h1
  · subst hser
    simp only [serEntryB, List.mem_append] at hbytes
    rcases hbytes with h2 | h2
    · exact serStr_lt kv.1 (h kv hkv) b h2
    · exact serBools_lt kv.2 b h2

theorem serMapU_lt (m : List (Str × Nat))
    (h : ∀ kv ∈ m, (∀ b ∈ kv.1, b < 256) ∧ kv.2 < 256) :
    ∀ b ∈ serMapU m, b < 256 := by
  intro b hb
  simp only [serMapU, List.mem_append, List.mem_flatten, List.mem_map] at hb
  rcases hb with h1 | ⟨bytes, ⟨kv, hkv, hser⟩, hbytes⟩
  · exact serLE_lt 8 m.length b h1
  · subst hser
    simp only [serEntryU, List.mem_append, List.mem_cons, List.not_mem_nil, or_false]
      at hbytes
    rcases hbytes with h2 | h2
    · exact serStr_lt kv.1 (h kv hkv).1 b h2
    · subst h2; exact (h kv hkv).2

theorem serUserState_bytes_lt (s : UserState) (hs : WfState s) :
    ∀ b ∈ serUserState s, b < 256 := by
  obtain ⟨-, hidb, -, hawf, -, hwwf⟩ := hs
  intro b hb
  simp only [serUserState, List.mem_append] at hb
  rcases hb with (h1 | h1) | h1
  · exact hidb b h1
  · exact serMapB_lt s.answers (fun kv hkv => (hawf kv hkv).2.1) b h1
  · exact serMapU_lt s.wheels (fun kv hkv => ⟨(hwwf kv hkv).2.1, (hwwf kv hkv).2.2⟩) b h1

theorem splitColon (xs ys : List Nat) (h : ∀ ch ∈ xs, ch ≠ 58) :
    (xs ++ 58 :: ys).takeWhile (fun ch => decide (ch ≠ 58)) = xs ∧
    (xs ++ 58 :: ys).dropWhile (fun ch => decide (ch ≠ 58)) = 58 :: ys := by
  induction xs with
  | nil => simp [List.takeWhile_cons, List.dropWhile_cons]
  | cons a rest ih =>
    have ha : a ≠ 58 := h a (List.mem_cons_self a rest)
    have ih' := ih (fun ch hch => h ch (List.mem_cons_of_mem a hch))
    simp only [decide_not] at ih'
    simp [List.cons_append, List.takeWhile_cons, List.dropWhile_cons, ha, ih'.1, ih'.2]

/-- Claim C1: decoding the token produced by `encode_user` with `decode_user`
under the same secret key returns the original state.  Stated for every state
representable by the Rust `UserState` type (`WfState`, which includes every
state reachable through create_user / answer_question / spin_wheel), for every
tag (keyed HMAC) function whose output is a byte string, as HMAC-SHA256's is. -/
theorem decode_encode_roundtrip (tag : List Nat → List Nat) (s : UserState)
    (hs : WfState s) (htag : ∀ b ∈ tag (serUserState s), b < 256) :
    decodeUser tag (encodeUser tag s) = some s := by
  have hsplit := splitColon (b64Encode (serUserState s)) (b64Encode (tag (serUserState s)))
    (b64Encode_mem_ne_colon (serUserState s))
  simp only [encodeUser, decodeUser, hsplit.1, hsplit.2,
    b64Decode_b64Encode (serUserState s) (serUserState_bytes_lt s hs),
    b64Decode_b64Encode (tag (serUserState s)) htag]
  simp only [eq_self_iff_true, if_true, deserUserState_serUserState s hs]

/-- Witness for C1: a concrete round-trip through the token format on a fresh
state with the all-zero id under a concrete tag function. -/
theorem decode_encode_roundtrip_witness :
    decodeUser exTag (encodeUser exTag exEmptyState) = some exEmptyState :=
  decode_encode_roundtrip exTag exEmptyState (by decide) (by decide)
